import Mathlib

/-!
Verification of the file classification and deterministic naming/routing
subsystem of the zen-doc-cli repository.

Shallow embedding: JavaScript strings are modelled as `List Char`; each
definition below is translated from the corresponding TypeScript function
(file and line references given in the doc comments).  JavaScript string
truthiness (`if (s)`) is modelled as `s ≠ []`.
-/

set_option maxRecDepth 4096
set_option linter.unusedVariables false

/-- JS strings are modelled as lists of characters. -/
abbrev Str := List Char

/-- Convert a Lean string literal into the `Str` model. -/
def chars (s : String) : Str := s.toList

/-- `s.split(sep)` for a single-character separator: JS semantics,
`"".split("/") = [""]`, `"a/".split("/") = ["a", ""]`. -/
def splitOnChar (sep : Char) : Str → List Str
  | [] => [[]]
  | c :: cs =>
    if c = sep then [] :: splitOnChar sep cs
    else
      match splitOnChar sep cs with
      | [] => [[c]]
      | s :: ss => (c :: s) :: ss

/-- `part.replace(/\.[^/.]+$/, "")`: strip a final extension, i.e. remove a
trailing `"." ++ run` where the run is nonempty and free of `.` and `/`.
(src/src/core/contentProcessing.ts line 337, src/core/fileUtils.ts line 20). -/
def stripExt (s : Str) : Str :=
  let r := s.reverse
  let ext := r.takeWhile (fun c => ¬ (c = '.' ∨ c = '/'))
  if ext ≠ [] ∧ (r.drop ext.length).head? = some '.' then
    ((r.drop ext.length).tail).reverse
  else s

/-- Fuel-driven worker for `replaceAll`; each step consumes at least one
character of the subject, so `fuel = s.length` never runs out. -/
def replaceAllFuel (pat rep : Str) : Nat → Str → Str
  | 0, s => s
  | _ + 1, [] => []
  | fuel + 1, c :: rest =>
    if pat ≠ [] ∧ pat.isPrefixOf (c :: rest) then
      rep ++ replaceAllFuel pat rep fuel ((c :: rest).drop pat.length)
    else
      c :: replaceAllFuel pat rep fuel rest

/-- `str.replace(pat, rep)` with a global literal pattern: leftmost,
non-overlapping, the replacement is not rescanned. -/
def replaceAll (pat rep s : Str) : Str := replaceAllFuel pat rep s.length s

/-- One character of `[a-zA-Z0-9]`-complement replacement: every
non-ASCII-alphanumeric character becomes `-`. -/
def sanitizeChar (c : Char) : Char := if c.isAlphanum then c else '-'

/-- The global replace of regex "-+" by "-": collapse each run of dashes to
a single dash (a dash immediately followed by another dash is dropped). -/
def collapseDashes : Str → Str
  | [] => []
  | [c] => [c]
  | c :: d :: rest =>
    if c = '-' ∧ d = '-' then collapseDashes (d :: rest)
    else c :: collapseDashes (d :: rest)

/-- `s.includes(pat)`: JS substring membership test. -/
def strIncludes (pat : Str) : Str → Bool
  | [] => pat.isPrefixOf ([] : Str)
  | c :: rest => pat.isPrefixOf (c :: rest) || strIncludes pat rest

/-- `.replace(/^-|-$/g, "")`: remove one leading and one trailing dash. -/
def trimDashes (s : Str) : Str :=
  let s1 := if s.head? = some '-' then s.tail else s
  if s1.getLast? = some '-' then s1.dropLast else s1

/-- `.replace(/^\/+|\/+$/g, "")`: strip leading and trailing runs of `/`
(src/core/fileUtils.ts line 68). -/
def trimSlashes (s : Str) : Str :=
  ((s.dropWhile (fun c => c = '/')).reverse.dropWhile (fun c => c = '/')).reverse

/-- `.replace(/[\/\\]/g, "/")`: normalize separators to forward slashes. -/
def sepToSlash (s : Str) : Str := s.map (fun c => if c = '\\' then '/' else c)

/-- A path separator character (`/` or `\`), the class `[\/\\]`. -/
def isSep (c : Char) : Bool := c = '/' || c = '\\'

/-- The path normalization used by `shouldIgnore` and `traverse`
(src/src/core/fileRead.ts lines 46-49 and 84-87): the input is the path with
the cwd already removed; the code then strips all leading separators
(`.replace(/^[\/\\]+/, "")`) and maps every separator to `/`
(`.replace(/[\/\\]/g, "/")`). -/
def normalizePath (p : Str) : Str := sepToSlash (p.dropWhile isSep)

/-- The per-pattern matching rule of `shouldIgnore`
(src/src/core/fileRead.ts lines 57-75): the body of the
`allIgnoredPatterns.some(...)` callback. -/
def matchesPattern (pattern relativePath : Str) : Bool :=
  let normalizedPattern := sepToSlash pattern
  if normalizedPattern.getLast? = some '/' then
    let dirPattern := normalizedPattern.dropLast
    (dirPattern ++ chars "/").isPrefixOf relativePath || relativePath = dirPattern
  else
    relativePath = normalizedPattern ||
      (('/' :: normalizedPattern)).isSuffixOf relativePath

/-- `shouldIgnore` (src/src/core/fileRead.ts lines 44-76).  The argument
`path` is the cwd-relative path (the `.replace(process.cwd(), "")` step is
the identity in this model).  Paths containing both `(` and `)` are exempt
from every pattern (the Next.js route-group special case). -/
def shouldIgnore (allIgnoredPatterns : List Str) (path : Str) : Bool :=
  let relativePath := normalizePath path
  if relativePath.contains '(' && relativePath.contains ')' then false
  else allIgnoredPatterns.any (fun pattern => matchesPattern pattern relativePath)

/-- The file categories (src/src/core/fileRead.ts lines 5-12). -/
inductive Category
  | components
  | pages
  | api
  | lib
  | config
  | other
deriving DecidableEq, Repr

/-- `relativePath.split("/").pop() || ""` (src/src/core/fileRead.ts
lines 121 and 150). -/
def lastSegment (relativePath : Str) : Str :=
  (splitOnChar '/' relativePath).getLastD []

/-- `fileName.split(".").pop()?.toLowerCase() || ""`
(src/src/core/fileRead.ts line 122). -/
def extensionOf (fileName : Str) : Str :=
  ((splitOnChar '.' fileName).getLastD []).map Char.toLower

/-- `determineCategory` (src/src/core/fileRead.ts lines 143-205), translated
branch by branch.  The `content` parameter is accepted and unused, exactly
as in the source. -/
def determineCategory (relativePath : Str) (content : Str) (extension : Str) :
    Category :=
  let path := relativePath.map Char.toLower
  let fileName := lastSegment relativePath
  if fileName = chars "page.tsx" ∨ fileName = chars "page.js" ∨
      fileName = chars "page.ts" ∨ fileName = chars "page.jsx" then
    .pages
  else if strIncludes (chars "/components/") path ∨
      strIncludes (chars "/component/") path ∨
      (chars "components/").isPrefixOf path then
    .components
  else if strIncludes (chars "/api/") path ∨
      strIncludes (chars "/routes/") path ∨
      (chars "api/").isPrefixOf path then
    .api
  else if strIncludes (chars "/lib/") path ∨
      strIncludes (chars "/utils/") path ∨
      strIncludes (chars "/helpers/") path ∨
      (chars "lib/").isPrefixOf path ∨
      (chars "utils/").isPrefixOf path ∨
      (chars "helpers/").isPrefixOf path then
    .lib
  else if extension ∈ [chars "json", chars "yaml", chars "yml", chars "toml",
      chars "config.js", chars "config.ts"] ∨
      strIncludes (chars "config") fileName ∨
      strIncludes (chars "package") fileName ∨
      strIncludes (chars "tsconfig") fileName then
    .config
  else .other

/-- `classify`: the category of a relative path as computed by
`categorizeFiles` (src/src/core/fileRead.ts lines 111-141): the extension is
the lowercased last dot-segment of the file name, and the content plays no
role in the decision. -/
def classify (relativePath : Str) : Category :=
  determineCategory relativePath []
    (extensionOf (lastSegment relativePath))

/-- The four recognized page-entry file names of the classifier's first rule
(src/src/core/fileRead.ts lines 153-158). -/
def pageEntryNames : List Str :=
  [chars "page.tsx", chars "page.js", chars "page.ts", chars "page.jsx"]

/-- The five result strings of `getHttpMethodFromFile`. -/
def verbStrings : List Str :=
  [chars "get", chars "post", chars "put", chars "delete", chars "patch"]

/-- The fields of a `FileInfo` record used by the naming/routing subsystem
(src/src/core/fileRead.ts lines 5-12; the `path`, `category` and
`extension` fields are not consulted by the functions modelled here). -/
structure FileInfo where
  relativePath : Str
  fileName : Str
  content : Str
deriving DecidableEq, Repr

/-- The per-segment filter of `getRouteFromPath`
(src/src/core/contentProcessing.ts lines 323-334). -/
def keepRoutePart (part : Str) : Bool :=
  ¬ (chars "temp-zen-docs-").isPrefixOf part ∧
  part ≠ chars "content" ∧ part ≠ chars "docs" ∧
  part ≠ [] ∧
  ¬ ((chars "(").isPrefixOf part ∧ (chars ")").isSuffixOf part)

/-- The per-segment map of `getRouteFromPath`
(src/src/core/contentProcessing.ts lines 335-350): strip the extension, then
test the plain dynamic-segment bracket shape BEFORE the catch-all shape,
exactly as the source does (the catch-all branch is therefore dead code,
since every `[...x]` also starts with `[` and ends with `]`). -/
def transformRoutePart (part : Str) : Str :=
  let withoutExt := stripExt part
  if (chars "[").isPrefixOf withoutExt ∧ (chars "]").isSuffixOf withoutExt then
    ':' :: withoutExt.tail.dropLast
  else if (chars "[...").isPrefixOf withoutExt ∧
      (chars "]").isSuffixOf withoutExt then
    '*' :: (withoutExt.drop 4).dropLast
  else withoutExt

/-- `getRouteFromPath` (src/src/core/contentProcessing.ts lines 315-354). -/
def getRouteFromPath (relativePath : Str) : Str :=
  let normalizedPath := sepToSlash relativePath
  let parts := splitOnChar '/' normalizedPath
  let routeParts := (parts.filter keepRoutePart).map transformRoutePart
  '/' :: (List.intercalate (chars "/") routeParts)

/-- The five HTTP verbs of the handler-export regex alternation
`(GET|POST|PUT|DELETE|PATCH)`. -/
inductive HttpVerb
  | get
  | post
  | put
  | delete
  | patch
deriving DecidableEq, Repr

/-- The lowercased text of a matched verb (`match[1].toLowerCase()`). -/
def HttpVerb.lower : HttpVerb → Str
  | .get => chars "get"
  | .post => chars "post"
  | .put => chars "put"
  | .delete => chars "delete"
  | .patch => chars "patch"

/-- The JS `\s` whitespace class (ASCII part). -/
def isWsChar (c : Char) : Bool :=
  c = ' ' || c = '\t' || c = '\n' || c = '\r' || c = '\x0b' || c = '\x0c'

/-- Case-insensitive literal match at the start of `s` (the regex has the
`i` flag); `pat` is given lowercased.  Returns the rest on success. -/
def dropCI (pat s : Str) : Option Str :=
  if pat.isPrefixOf (s.map Char.toLower) then some (s.drop pat.length)
  else none

/-- `\s+` at the start of `s`: requires at least one whitespace character
and consumes the maximal run (no later backtracking can help, since
whitespace never begins the literals that follow it in the pattern). -/
def munchWs1 (s : Str) : Option Str :=
  if isWsChar (s.headD 'x') then some (s.dropWhile isWsChar) else none

/-- Case-insensitive literal `pat` (lowercased) at the start of `s`. -/
def lowerPre (pat s : Str) : Bool := pat.isPrefixOf (s.map Char.toLower)

/-- One attempt, anchored at the start of `s`, of the regex
`export\s+(?:async\s+)?function\s+(GET|POST|PUT|DELETE|PATCH)` with the `i`
flag (src/src/core/contentProcessing.ts lines 363-365 and 382-384).  If
`async` matches but no whitespace follows it, skipping the optional group
cannot succeed either (the next literal would have to be `function` but the
text starts with `async`), so proceeding from the pre-`async` position is
faithful to the backtracking semantics. -/
def matchHere (s : Str) : Option HttpVerb := do
  let s1 ← dropCI (chars "export") s
  let s2 ← munchWs1 s1
  let s3 :=
    match dropCI (chars "async") s2 with
    | some t =>
      match munchWs1 t with
      | some t2 => t2
      | none => s2
    | none => s2
  let s4 ← dropCI (chars "function") s3
  let s5 ← munchWs1 s4
  if lowerPre (chars "get") s5 then some .get
  else if lowerPre (chars "post") s5 then some .post
  else if lowerPre (chars "put") s5 then some .put
  else if lowerPre (chars "delete") s5 then some .delete
  else if lowerPre (chars "patch") s5 then some .patch
  else none

/-- `content.match(regex)`: the leftmost match of the handler-export regex,
scanning positions left to right. -/
def findVerb : Str → Option HttpVerb
  | [] => matchHere []
  | c :: rest =>
    match matchHere (c :: rest) with
    | some v => some v
    | none => findVerb rest

/-- `getHttpMethodFromFile` (src/src/core/contentProcessing.ts
lines 356-391). -/
def getHttpMethodFromFile (file : FileInfo) : Str :=
  let fileName := file.fileName.map Char.toLower
  if fileName = chars "route.ts" ∨ fileName = chars "route.js" then
    match findVerb file.content with
    | some v => v.lower
    | none => chars "get"
  else if strIncludes (chars "get.") fileName then chars "get"
  else if strIncludes (chars "post.") fileName then chars "post"
  else if strIncludes (chars "put.") fileName then chars "put"
  else if strIncludes (chars "delete.") fileName then chars "delete"
  else if strIncludes (chars "patch.") fileName then chars "patch"
  else
    match findVerb file.content with
    | some v => v.lower
    | none => chars "get"

/-- `getActionFromRoute` (src/core/fileUtils.ts lines 66-127).  The JS
`if (parts.length >= 2 && parts[0] === "api") \x7b ... \x7d` block falls
through to the auth/last-part handling when none of its inner returns fire;
this is modelled by the intermediate `Option`. -/
def getActionFromRoute (routePath method : Str) : Str :=
  let parts := splitOnChar '/' (trimSlashes routePath)
  let apiResult : Option Str :=
    if 2 ≤ parts.length ∧ parts.headD [] = chars "api" then
      let resource := parts.getD 1 []
      if method = chars "get" ∧ parts.length = 2 then
        some (chars "all-" ++ resource)
      else if method = chars "get" ∧ parts.length = 3 ∧
          (parts.getD 2 [] = chars ":id" ∨ parts.getD 2 [] = chars "[id]") then
        some (resource ++ chars "-by-id")
      else if method = chars "post" ∧ parts.length = 2 then
        some (chars "create-" ++ resource)
      else if method = chars "put" ∧ parts.length = 3 ∧
          (parts.getD 2 [] = chars ":id" ∨ parts.getD 2 [] = chars "[id]") then
        some (chars "update-" ++ resource)
      else if method = chars "delete" ∧ parts.length = 3 ∧
          (parts.getD 2 [] = chars ":id" ∨ parts.getD 2 [] = chars "[id]") then
        some (chars "delete-" ++ resource)
      else if 3 ≤ parts.length then
        some (parts.getD 2 [] ++ chars "-" ++ resource)
      else none
    else none
  match apiResult with
  | some r => r
  | none =>
    if strIncludes (chars "auth") routePath ∨
        strIncludes (chars "login") routePath then chars "auth"
    else if strIncludes (chars "register") routePath then chars "register"
    else
      let lastPart := parts.getLastD []
      if lastPart ≠ [] ∧ lastPart ≠ chars ":id" then
        lastPart.map sanitizeChar
      else
        let meaningfulParts := parts.filter
          (fun p => p ≠ [] ∧ p ≠ chars ":id" ∧ p ≠ chars "api")
        let lastMeaningful := meaningfulParts.getLastD []
        if lastMeaningful = [] then chars "route" else lastMeaningful

/-- `getUniqueFileName` (src/core/fileUtils.ts lines 19-64).  JS string
truthiness (`if (routePath && httpMethod)`) is `≠ []`. -/
def getUniqueFileName (file : FileInfo) (category : Str) : Str :=
  let baseName := stripExt file.fileName
  let processedBaseName :=
    replaceAll (chars ".action") (chars "-action") baseName
  if category = chars "api" then
    let routePath := getRouteFromPath file.relativePath
    let httpMethod := getHttpMethodFromFile file
    if routePath ≠ [] ∧ httpMethod ≠ [] then
      httpMethod ++ chars "-" ++
        getActionFromRoute routePath httpMethod ++ chars ".md"
    else processedBaseName ++ chars "-api.md"
  else if category = chars "pages" then
    let routePath := getRouteFromPath file.relativePath
    if routePath ≠ [] then
      let cleanPath := trimDashes (collapseDashes (routePath.map sanitizeChar))
      cleanPath ++ chars "-page.md"
    else processedBaseName ++ chars "-page.md"
  else if category = chars "components" then
    processedBaseName ++ chars "-component.md"
  else if category = chars "lib" then
    processedBaseName ++ chars "-utility.md"
  else processedBaseName ++ chars ".md"

/-- `.replace(/\.md$/, "")` (src/src/core/astroGenerator.ts lines 194-197). -/
def stripMdSuffix (s : Str) : Str :=
  if (chars ".md").isSuffixOf s then s.take (s.length - 3) else s

/-- The slug assembled for a sidebar entry by `generateSidebarConfigWithAI`
(src/src/core/astroGenerator.ts lines 194-227):
`category ++ "/" ++ getUniqueFileName(file, category)` minus `.md`. -/
def sidebarSlug (file : FileInfo) (category : Str) : Str :=
  category ++ '/' :: stripMdSuffix (getUniqueFileName file category)

/-! ## Helper lemmas -/

theorem splitOnChar_ne_nil (sep : Char) (s : Str) : splitOnChar sep s ≠ [] := by
  cases s with
  | nil => simp [splitOnChar]
  | cons c cs =>
    simp only [splitOnChar]
    split
    · simp
    · split <;> simp

theorem mem_of_mem_splitOnChar {sep : Char} {s t : Str}
    (ht : t ∈ splitOnChar sep s) : ∀ c ∈ t, c ∈ s := by
  induction s generalizing t with
  | nil =>
    simp only [splitOnChar, List.mem_singleton] at ht
    subst ht; simp
  | cons b bs ih =>
    simp only [splitOnChar] at ht
    by_cases hb : b = sep
    · rw [if_pos hb] at ht
      rcases List.mem_cons.mp ht with h | h
      · subst h; simp
      · intro c hc; exact List.mem_cons_of_mem _ (ih h c hc)
    · rw [if_neg hb] at ht
      rcases hsp : splitOnChar sep bs with _ | ⟨s0, ss⟩
      · exact absurd hsp (splitOnChar_ne_nil sep bs)
      · rw [hsp] at ht
        rcases List.mem_cons.mp ht with h | h
        · subst h
          intro c hc
          rcases List.mem_cons.mp hc with rfl | hc2
          · exact List.mem_cons_self _ _
          · exact List.mem_cons_of_mem _
              (ih (by rw [hsp]; exact List.mem_cons_self _ _) c hc2)
        · intro c hc
          exact List.mem_cons_of_mem _
            (ih (by rw [hsp]; exact List.mem_cons_of_mem _ h) c hc)

theorem head?_dropWhile_not (q : Char → Bool) :
    ∀ (l : Str) (a : Char), (l.dropWhile q).head? = some a → q a = false := by
  intro l
  induction l with
  | nil => intro a h; simp [List.dropWhile] at h
  | cons b bs ih =>
    intro a h
    cases hb : q b with
    | true =>
      rw [List.dropWhile_cons, if_pos hb] at h
      exact ih a h
    | false =>
      rw [List.dropWhile_cons, if_neg (by simp [hb])] at h
      simp only [List.head?_cons, Option.some.injEq] at h
      rw [← h]; exact hb

theorem normalizePath_head_ne_slash (p : Str) :
    (normalizePath p).head? ≠ some '/' := by
  intro h
  unfold normalizePath sepToSlash at h
  rw [List.head?_map] at h
  cases hd : (p.dropWhile isSep).head? with
  | none => rw [hd] at h; simp at h
  | some a =>
    rw [hd] at h
    simp only [Option.map_some'] at h
    have ha := head?_dropWhile_not isSep _ _ hd
    have h2 : (if a = '\\' then '/' else a) = '/' := by
      injection h
    by_cases hb : a = '\\'
    · rw [hb] at ha; simp [isSep] at ha
    · rw [if_neg hb] at h2
      rw [h2] at ha; simp [isSep] at ha

theorem bslash_not_mem_normalizePath (p : Str) : '\\' ∉ normalizePath p := by
  intro h
  unfold normalizePath sepToSlash at h
  rcases List.mem_map.mp h with ⟨a, _, ha⟩
  by_cases hb : a = '\\'
  · rw [if_pos hb] at ha; exact absurd ha (by decide)
  · rw [if_neg hb] at ha; exact hb ha

theorem HttpVerb.lower_mem (v : HttpVerb) : v.lower ∈ verbStrings := by
  cases v <;> decide

theorem getHttpMethodFromFile_mem (f : FileInfo) :
    getHttpMethodFromFile f ∈ verbStrings := by
  simp only [getHttpMethodFromFile]
  repeat' split
  all_goals try decide
  all_goals exact HttpVerb.lower_mem _

/-! ## Claim theorems -/

/-- **C1** (code evaluated at the failing input): two distinct FileRecords of
the same category (`lib`, as assigned by the classifier to both) receive the
same output name from `getUniqueFileName`, and the same sidebar slug; no
numeric disambiguator (`-2`, `-3`, ...) is appended anywhere. -/
theorem slug_collision_same_category :
    (⟨chars "utils/a/helper.ts", chars "helper.ts", []⟩ : FileInfo) ≠
      ⟨chars "utils/b/helper.ts", chars "helper.ts", []⟩ ∧
    classify (chars "utils/a/helper.ts") = Category.lib ∧
    classify (chars "utils/b/helper.ts") = Category.lib ∧
    getUniqueFileName ⟨chars "utils/a/helper.ts", chars "helper.ts", []⟩
        (chars "lib") =
      getUniqueFileName ⟨chars "utils/b/helper.ts", chars "helper.ts", []⟩
        (chars "lib") ∧
    sidebarSlug ⟨chars "utils/a/helper.ts", chars "helper.ts", []⟩
        (chars "lib") =
      sidebarSlug ⟨chars "utils/b/helper.ts", chars "helper.ts", []⟩
        (chars "lib") :=
  ⟨by decide, by decide, by decide, by decide, by decide⟩

/-- **C2** (code evaluated at the failing input): `getRouteFromPath` renders
the catch-all file segment `[...slug].tsx` as `:...slug`, not `*slug`,
because the plain dynamic-segment branch is tested first; a catch-all
directory segment `[...slug]` is first mangled by extension stripping to
`[..` and passes through unchanged. -/
theorem catchAll_rendered_as_dynamic :
    getRouteFromPath (chars "docs/[...slug].tsx") = chars "/:...slug" ∧
    getRouteFromPath (chars "docs/[...slug].tsx") ≠ chars "/*slug" ∧
    getRouteFromPath (chars "app/[...slug]/page.tsx") = chars "/app/[../page" :=
  ⟨by decide, by decide, by decide⟩

/-- **C3** counterexample: `app/about/hero.tsx` has an `app` directory
segment and matches none of classifier rules 1-4, yet the classifier
returns `other`, not `pages` — the code has no `pages`/`app` directory
rule. -/
theorem no_pages_directory_rule :
    chars "app" ∈ splitOnChar '/' (chars "app/about/hero.tsx") ∧
    classify (chars "app/about/hero.tsx") = Category.other ∧
    Category.other ≠ Category.pages :=
  ⟨by decide, by decide, by decide⟩

/-- **C3** amended: `determineCategory` assigns `pages` only through the
page-entry filename rule; a path whose final segment is not one of
`page.tsx`/`page.js`/`page.ts`/`page.jsx` is never classified `pages`,
regardless of `pages`/`app` directory segments. -/
theorem pages_only_from_pageEntry :
    ∀ relativePath content extension : Str,
      lastSegment relativePath ∉ pageEntryNames →
      determineCategory relativePath content extension ≠ Category.pages := by
  intro p c e h
  have h4 : ¬(lastSegment p = chars "page.tsx" ∨ lastSegment p = chars "page.js" ∨
      lastSegment p = chars "page.ts" ∨ lastSegment p = chars "page.jsx") :=
    fun hc => h (by simpa [pageEntryNames] using hc)
  simp only [determineCategory]
  rw [if_neg h4]
  repeat' split
  all_goals decide

/-- Witness for the amended C3 theorem at a concrete input. -/
theorem pages_only_from_pageEntry_witness :
    determineCategory (chars "app/dashboard/view.tsx") [] (chars "tsx") ≠
      Category.pages :=
  pages_only_from_pageEntry _ _ _ (by decide)

/-- **C4**: the classifier maps the five example paths as the spec states,
and every path whose final segment is exactly one of the page-entry names is
classified `pages` no matter what directory segments (or content, or
extension) it has. -/
theorem classifier_examples_and_pageEntry :
    classify (chars "src/components/Button.tsx") = Category.components ∧
    classify (chars "app/api/users/route.ts") = Category.api ∧
    classify (chars "app/page.tsx") = Category.pages ∧
    classify (chars "src/lib/utils.ts") = Category.lib ∧
    classify (chars "package.json") = Category.config ∧
    ∀ relativePath content extension : Str,
      lastSegment relativePath ∈ pageEntryNames →
      determineCategory relativePath content extension = Category.pages := by
  refine ⟨by decide, by decide, by decide, by decide, by decide, ?_⟩
  intro p c e h
  have h4 : lastSegment p = chars "page.tsx" ∨ lastSegment p = chars "page.js" ∨
      lastSegment p = chars "page.ts" ∨ lastSegment p = chars "page.jsx" := by
    simpa [pageEntryNames] using h
  simp only [determineCategory]
  exact if_pos h4

/-- Witness for C4 at a concrete input: a `page.tsx` inside a `components/`
directory is still classified `pages`. -/
theorem classifier_examples_and_pageEntry_witness :
    determineCategory (chars "components/page.tsx") [] (chars "tsx") =
      Category.pages :=
  classifier_examples_and_pageEntry.2.2.2.2.2
    (chars "components/page.tsx") [] (chars "tsx") (by decide)

/-- **C8**: HTTP-method inference — a `route.ts` file (case-insensitive
name) whose content exports a `POST` handler yields `post`; a `route.ts`
with no recognizable exported handler yields `get`; and for every input the
result is one of the five lowercase verbs (the Lean function is total by
construction, matching "never raises"). -/
theorem httpMethod_post_default_total :
    getHttpMethodFromFile
        ⟨[], chars "Route.TS", chars "export async function POST(req)"⟩ =
      chars "post" ∧
    getHttpMethodFromFile ⟨[], chars "route.ts", chars "const handler = 1"⟩ =
      chars "get" ∧
    ∀ f : FileInfo, getHttpMethodFromFile f ∈ verbStrings :=
  ⟨by decide, by decide, fun f => getHttpMethodFromFile_mem f⟩

/-- **C9**: the walker/ignore-predicate path normalization never yields a
string that starts with `/` or contains `\`. -/
theorem normalizePath_no_leading_sep :
    ∀ p : Str, (normalizePath p).head? ≠ some '/' ∧ '\\' ∉ normalizePath p :=
  fun p => ⟨normalizePath_head_ne_slash p, bslash_not_mem_normalizePath p⟩

theorem sepToSlash_eq_self : ∀ s : Str, '\\' ∉ s → sepToSlash s = s
  | [], _ => rfl
  | c :: cs, h => by
    simp only [sepToSlash, List.map_cons]
    have hc : c ≠ '\\' := fun hc => h (hc ▸ List.mem_cons_self _ _)
    rw [if_neg hc]
    have ih := sepToSlash_eq_self cs (fun hm => h (List.mem_cons_of_mem _ hm))
    simp only [sepToSlash] at ih
    rw [ih]

/-- **C5**: a path whose normalized form has a parenthesized segment
`(mid)` is never ignored, whatever the pattern set (in particular for
directory-style patterns). -/
theorem paren_segment_never_ignored :
    ∀ (patterns : List Str) (path : Str),
      (∃ mid : Str,
        '(' :: (mid ++ [')']) ∈ splitOnChar '/' (normalizePath path)) →
      shouldIgnore patterns path = false := by
  intro patterns path h
  obtain ⟨mid, hmem⟩ := h
  have hpar1 : '(' ∈ normalizePath path :=
    mem_of_mem_splitOnChar hmem '(' (List.mem_cons_self _ _)
  have hpar2 : ')' ∈ normalizePath path :=
    mem_of_mem_splitOnChar hmem ')'
      (List.mem_cons_of_mem _ (List.mem_append_right _ (List.mem_singleton.mpr rfl)))
  have hc1 : (normalizePath path).contains '(' = true :=
    List.elem_eq_true_of_mem hpar1
  have hc2 : (normalizePath path).contains ')' = true :=
    List.elem_eq_true_of_mem hpar2
  simp only [shouldIgnore]
  rw [if_pos (Bool.and_eq_true_iff.mpr ⟨hc1, hc2⟩)]

/-- Witness for C5 at a concrete route-group path and concrete pattern. -/
theorem paren_segment_never_ignored_witness :
    shouldIgnore [chars "app/"] (chars "app/(landing)/page.tsx") = false :=
  paren_segment_never_ignored [chars "app/"] (chars "app/(landing)/page.tsx")
    ⟨chars "landing", by decide⟩

/-- **C6** counterexample: the path `build/(x)/y.ts` starts with
`build` + `/` (the stem of the directory pattern `build/` plus a
path-segment boundary), yet `shouldIgnore` returns `false` for it — the
parenthesized-segment exemption overrides the directory-pattern rule, so
the claimed "exactly" biconditional fails. -/
theorem dirPattern_paren_counterexample :
    (chars "build/").isPrefixOf (normalizePath (chars "build/(x)/y.ts")) = true ∧
    shouldIgnore [chars "build/"] (chars "build/(x)/y.ts") = false :=
  ⟨by decide, by decide⟩

/-- **C6** amended: for paths whose normalized form contains no
parenthesized exemption characters, a directory pattern `stem ++ "/"`
ignores exactly the path equal to `stem` or nested under `stem ++ "/"`;
a plain pattern matches only on full equality or as a `/`-preceded path
suffix; and `build/` does not match `buildtools/file.ts`. -/
theorem ignore_pattern_matching_rule :
    (∀ stem path : Str, '\\' ∉ stem →
      ¬('(' ∈ normalizePath path ∧ ')' ∈ normalizePath path) →
      (shouldIgnore [stem ++ chars "/"] path = true ↔
        (normalizePath path = stem ∨
         (stem ++ chars "/").isPrefixOf (normalizePath path) = true))) ∧
    (∀ pattern path : Str, '\\' ∉ pattern → pattern.getLast? ≠ some '/' →
      ¬('(' ∈ normalizePath path ∧ ')' ∈ normalizePath path) →
      (shouldIgnore [pattern] path = true ↔
        (normalizePath path = pattern ∨
         ('/' :: pattern).isSuffixOf (normalizePath path) = true))) ∧
    shouldIgnore [chars "build/"] (chars "buildtools/file.ts") = false := by
  refine ⟨?_, ?_, by decide⟩
  · intro stem path hbs hnp
    have hch : chars "/" = ['/'] := rfl
    have hnc : ¬((normalizePath path).contains '(' &&
        (normalizePath path).contains ')') = true := by
      intro hb
      rcases Bool.and_eq_true_iff.mp hb with ⟨hb1, hb2⟩
      exact hnp ⟨List.elem_iff.mp hb1, List.elem_iff.mp hb2⟩
    have hsep : sepToSlash (stem ++ ['/']) = stem ++ ['/'] :=
      sepToSlash_eq_self _ (by
        intro hm
        rcases List.mem_append.mp hm with hm1 | hm2
        · exact hbs hm1
        · simp at hm2)
    simp only [shouldIgnore, List.any_cons, List.any_nil, Bool.or_false, hch]
    rw [if_neg hnc]
    simp only [matchesPattern, hsep]
    rw [List.getLast?_concat]
    rw [if_pos rfl]
    rw [List.dropLast_concat]
    simp only [Bool.or_eq_true, decide_eq_true_eq]
    constructor
    · rintro (h | h)
      · exact Or.inr h
      · exact Or.inl h
    · rintro (h | h)
      · exact Or.inr h
      · exact Or.inl h
  · intro pattern path hbs hlast hnp
    have hnc : ¬((normalizePath path).contains '(' &&
        (normalizePath path).contains ')') = true := by
      intro hb
      rcases Bool.and_eq_true_iff.mp hb with ⟨hb1, hb2⟩
      exact hnp ⟨List.elem_iff.mp hb1, List.elem_iff.mp hb2⟩
    have hsep : sepToSlash pattern = pattern := sepToSlash_eq_self _ hbs
    simp only [shouldIgnore, List.any_cons, List.any_nil, Bool.or_false]
    rw [if_neg hnc]
    simp only [matchesPattern, hsep]
    rw [if_neg hlast]
    simp only [Bool.or_eq_true, decide_eq_true_eq]

/-- Witness for the amended C6 theorem: `build/` ignores a nested path, and
the plain pattern `secrets.txt` matches as a path suffix. -/
theorem ignore_pattern_matching_rule_witness :
    shouldIgnore [chars "build" ++ chars "/"] (chars "build/src/a.ts") = true ∧
    shouldIgnore [chars "secrets.txt"] (chars "config/secrets.txt") = true :=
  ⟨(ignore_pattern_matching_rule.1 (chars "build") (chars "build/src/a.ts")
      (by decide) (by decide)).mpr (Or.inr (by decide)),
   (ignore_pattern_matching_rule.2.1 (chars "secrets.txt")
      (chars "config/secrets.txt") (by decide) (by decide) (by decide)).mpr
      (Or.inr (by decide))⟩

/-- **C7**: any API FileRecord resolving to `GET /api/users` is slugged
`get-all-users(.md)`, any resolving to `GET /api/users/:id` is slugged
`get-users-by-id(.md)`, and the two names differ. -/
theorem api_slugs_users_distinct :
    (∀ f : FileInfo,
      getRouteFromPath f.relativePath = chars "/api/users" →
      getHttpMethodFromFile f = chars "get" →
      getUniqueFileName f (chars "api") = chars "get-all-users.md") ∧
    (∀ f : FileInfo,
      getRouteFromPath f.relativePath = chars "/api/users/:id" →
      getHttpMethodFromFile f = chars "get" →
      getUniqueFileName f (chars "api") = chars "get-users-by-id.md") ∧
    chars "get-all-users.md" ≠ chars "get-users-by-id.md" := by
  refine ⟨?_, ?_, by decide⟩
  · intro f h1 h2
    simp only [getUniqueFileName, h1, h2, if_true]
    rw [if_pos (by decide : chars "/api/users" ≠ [] ∧ chars "get" ≠ [])]
    decide
  · intro f h1 h2
    simp only [getUniqueFileName, h1, h2, if_true]
    rw [if_pos (by decide : chars "/api/users/:id" ≠ [] ∧ chars "get" ≠ [])]
    decide

/-- Witness for C7: concrete records whose routes resolve to
`GET /api/users` and `GET /api/users/:id`. -/
theorem api_slugs_users_distinct_witness :
    getUniqueFileName ⟨chars "api/users.ts", chars "users.ts", []⟩
        (chars "api") = chars "get-all-users.md" ∧
    getUniqueFileName ⟨chars "api/users/[id].ts", chars "[id].ts", []⟩
        (chars "api") = chars "get-users-by-id.md" :=
  ⟨api_slugs_users_distinct.1 _ (by decide) (by decide),
   api_slugs_users_distinct.2.1 _ (by decide) (by decide)⟩

/-- **C10**: every route starts with `/` (hence is truthy), every inferred
HTTP method is a nonempty string (truthy), and consequently the `api` and
`pages` branches of `getUniqueFileName` always take the route-derived path:
the `<baseName>-api` and `<baseName>-page` fallbacks are unreachable. -/
theorem route_method_truthy_fallbacks_unreachable :
    (∀ p : Str, (getRouteFromPath p).head? = some '/') ∧
    (∀ f : FileInfo, getHttpMethodFromFile f ≠ []) ∧
    (∀ f : FileInfo, getUniqueFileName f (chars "api") =
      getHttpMethodFromFile f ++ chars "-" ++
        getActionFromRoute (getRouteFromPath f.relativePath)
          (getHttpMethodFromFile f) ++ chars ".md") ∧
    (∀ f : FileInfo, getUniqueFileName f (chars "pages") =
      trimDashes (collapseDashes
        ((getRouteFromPath f.relativePath).map sanitizeChar)) ++
        chars "-page.md") := by
  have hroute : ∀ p : Str, (getRouteFromPath p).head? = some '/' := by
    intro p
    simp [getRouteFromPath]
  have hmethod : ∀ f : FileInfo, getHttpMethodFromFile f ≠ [] := by
    intro f h
    have hm := getHttpMethodFromFile_mem f
    rw [h] at hm
    exact absurd hm (by decide)
  have hne : ∀ p : Str, getRouteFromPath p ≠ [] := by
    intro p h
    have := hroute p
    rw [h] at this
    simp at this
  refine ⟨hroute, hmethod, ?_, ?_⟩
  · intro f
    simp only [getUniqueFileName, if_true]
    rw [if_pos ⟨hne f.relativePath, hmethod f⟩]
  · intro f
    simp only [getUniqueFileName, if_true]
    rw [if_pos (hne f.relativePath)]
    rw [if_neg (by decide : ¬(chars "pages" = chars "api"))]
